import Mathlib

/-!
Verification of the gluu-patch content-addressed patching engine.

The Python source is shallowly embedded: dictionaries become association
lists (`List (key × value)`) with python-dict semantics (unique keys,
insertion order, assignment updates in place or appends), byte strings
become `List Nat`, and SHA-256 identities are modelled by injective
stand-ins (a hash collision is assumed not to occur).  Filesystem and
network effects are passed in explicitly (`Except` for fallible fetches,
explicit state records for the file patcher).
-/

namespace Gluu

/-- Byte strings are lists of byte values. -/
abbrev Bytes := List Nat

/-- Python dict lookup `d[k]` / `k in d`, first matching key. -/
def lookupA {α β : Type} [DecidableEq α] (k : α) : List (α × β) → Option β
  | [] => none
  | p :: rest => if p.1 = k then some p.2 else lookupA k rest

/-- Python `del d[k]`: remove the entry for `k` (dict keys are unique, so
removing every match agrees with removing the single match). -/
def delA {α β : Type} [DecidableEq α] (k : α) (l : List (α × β)) : List (α × β) :=
  l.filter (fun p => decide (p.1 ≠ k))

/-- Python dict assignment `d[k] = v`: update in place when the key exists,
append otherwise. -/
def updIns {α β : Type} [DecidableEq α] (l : List (α × β)) (k : α) (v : β) : List (α × β) :=
  if (lookupA k l).isSome then l.map (fun p => if p.1 = k then (k, v) else p)
  else l ++ [(k, v)]

theorem lookupA_isSome_iff {α β : Type} [DecidableEq α] (k : α) (l : List (α × β)) :
    (lookupA k l).isSome ↔ k ∈ l.map Prod.fst := by
  induction l with
  | nil => simp [lookupA]
  | cons p rest ih =>
    by_cases h : p.1 = k
    · simp [lookupA, h]
    · simp [lookupA, h, ih, Ne.symm h]

theorem lookupA_eq_none_iff {α β : Type} [DecidableEq α] (k : α) (l : List (α × β)) :
    lookupA k l = none ↔ k ∉ l.map Prod.fst := by
  rw [← lookupA_isSome_iff]
  cases lookupA k l <;> simp

theorem lookupA_mem {α β : Type} [DecidableEq α] {k : α} {v : β} {l : List (α × β)}
    (h : lookupA k l = some v) : (k, v) ∈ l := by
  induction l with
  | nil => simp [lookupA] at h
  | cons p rest ih =>
    by_cases hp : p.1 = k
    · simp [lookupA, hp] at h
      cases p
      simp_all
    · simp [lookupA, hp] at h
      exact List.mem_cons_of_mem _ (ih h)

theorem mem_lookupA {α β : Type} [DecidableEq α] {k : α} {v : β} {l : List (α × β)}
    (hnd : (l.map Prod.fst).Nodup) (h : (k, v) ∈ l) : lookupA k l = some v := by
  induction l with
  | nil => simp at h
  | cons p rest ih =>
    simp only [List.map_cons, List.nodup_cons] at hnd
    rcases List.mem_cons.mp h with h1 | h2
    · subst h1
      simp [lookupA]
    · have hk : p.1 ≠ k := by
        intro he
        exact hnd.1 (he ▸ (List.mem_map.mpr ⟨(k, v), h2, rfl⟩))
      simp [lookupA, hk, ih hnd.2 h2]

/-! ## Manifest data model (`patchData.json`) -/

/-- A file record of the manifest: `{"hash": ..., "blocks": [...]}`. -/
structure FileRec where
  hash : String
  blocks : List String
deriving DecidableEq

/-- A bundle member of the manifest:
`{"hash": ..., "length": ..., "blockOffset": ...}`. -/
structure BMeta where
  hash : String
  length : Nat
  blockOffset : Nat
deriving DecidableEq

/-- A bundle's member map, ordered by its integer index `0..n-1`. -/
abbrev BundleList := List BMeta

/-- The member hashes of a bundle in index order. -/
def entryHashes (l : BundleList) : List String := l.map BMeta.hash

/-- The manifest: `{"files": ..., "bundles": ...}` (the `compression`
section carries no data used by the verified components). -/
structure Manifest where
  files : List (String × FileRec)
  bundles : List (String × BundleList)
deriving DecidableEq

/-! ## Planner (`patch_data.py`) -/

/-- The per-file condition of `PatchData.get_files_to_patch`:
`filename not in local_files or new_build hash != local hash or not
change_log.is_valid(filename)`. -/
def needsPatch (localFiles : List (String × String)) (isValid : String → Bool)
    (fn : String) (fr : FileRec) : Bool :=
  match lookupA fn localFiles with
  | none => true
  | some h => decide (fr.hash ≠ h) || !(isValid fn)

/-- `PatchData.get_files_to_patch`: collect, in manifest order, the file
names satisfying `needsPatch`. -/
def get_files_to_patch (files : List (String × FileRec))
    (localFiles : List (String × String)) (isValid : String → Bool) : List String :=
  (files.filter (fun p => needsPatch localFiles isValid p.1 p.2)).map Prod.fst

/-- `ChangeLog.is_valid`: the file exists on disk (metadata readable), a
changelog entry is present (otherwise `KeyError` is caught), and the
stored size and mtime strings match the current ones.  The filesystem is
passed in as `fsMeta`, giving each path's `(size, lastMod)` when the path
exists. -/
def changelog_is_valid (logData : List (String × (String × String)))
    (fsMeta : String → Option (String × String)) (fn : String) : Bool :=
  match fsMeta fn with
  | none => false
  | some cur =>
    match lookupA fn logData with
    | none => false
    | some stored => decide (stored.1 = cur.1) && decide (stored.2 = cur.2)

/-- `PatchData._analyze_bundles`: for each bundle of the manifest collect
its member count and the list of members found in `missing_blocks`, keeping
only bundles with a positive member count.  The source stores the float
`len(blocks_needed) / bundle_size`; the embedding keeps the exact pair
`(bundle_size, blocks_needed)` so the `>= 0.5` test of the next stage is the
exact comparison `bundle_size <= 2 * len(blocks_needed)` (float division is
exact enough to agree for any member count below 2^52).  `neededBlocks`
is the inner loop collecting, in index order, the member hashes found in
`missing_blocks`. -/
def neededBlocks (missing : List String) (bl : BundleList) : List String :=
  (entryHashes bl).filter (fun h => decide (h ∈ missing))

def analyze_bundles (bundles : List (String × BundleList)) (missing : List String) :
    List (String × Nat × List String) :=
  bundles.filterMap (fun p =>
    if p.2.length > 0 then some (p.1, p.2.length, neededBlocks missing p.2) else none)

/-- `PatchData._bundles_to_download`: select the bundles whose needed
fraction is at least one half, and discard their needed hashes from the
remaining missing set. -/
def bundles_to_download (bundleInfo : List (String × Nat × List String))
    (missing : List String) : List (String × List String) × List String :=
  let plan := bundleInfo.filterMap (fun e =>
    if e.2.1 ≤ 2 * e.2.2.length then some (e.1, e.2.2) else none)
  let remaining := missing.filter (fun h => !(plan.any (fun p => decide (h ∈ p.2))))
  (plan, remaining)

/-- `PatchData.find_bundles_and_blocks_to_fetch` (with `return_mapping`). -/
def find_bundles_and_blocks_to_fetch (bundles : List (String × BundleList))
    (missing : List String) : List (String × List String) × List String :=
  bundles_to_download (analyze_bundles bundles missing) missing

/-- `PatchData.get_missing_blocks`: the blocks of the files to patch that
are not in the local block pool, as a deduplicated list (a Python set).
Files to patch always come from the manifest, so the lookup is total in
the pipeline; a missing record contributes nothing here. -/
def get_missing_blocks (files_to_patch : List String)
    (files : List (String × FileRec)) (local_blocks : List (String × Bytes)) : List String :=
  ((files_to_patch.flatMap (fun fn =>
    match lookupA fn files with
    | some fr => fr.blocks
    | none => [])).filter (fun b => !(lookupA b local_blocks).isSome)).dedup

theorem mem_map_fst_filter {α β : Type} (q : α × β → Bool) (l : List (α × β)) (k : α) :
    k ∈ (l.filter q).map Prod.fst ↔ ∃ v, (k, v) ∈ l ∧ q (k, v) = true := by
  constructor
  · intro h
    rcases List.mem_map.mp h with ⟨p, hp, hfst⟩
    rcases List.mem_filter.mp hp with ⟨hmem, hq⟩
    subst hfst
    exact ⟨p.2, hmem, hq⟩
  · rintro ⟨v, hmem, hq⟩
    exact List.mem_map.mpr ⟨(k, v), List.mem_filter.mpr ⟨hmem, hq⟩, rfl⟩

/-- Claim C1: a file is scheduled for patching exactly when it is absent
locally, or its manifest file-record hash differs from the locally derived
hash, or its changelog entry is invalid (file missing on disk, no
changelog entry, or a size/mtime mismatch); files present with a matching
hash and valid changelog entry are not scheduled. -/
theorem files_to_patch_iff
    (files : List (String × FileRec)) (localFiles : List (String × String))
    (logData : List (String × (String × String)))
    (fsMeta : String → Option (String × String))
    (hnd : (files.map Prod.fst).Nodup)
    (fn : String) (fr : FileRec) (hmem : (fn, fr) ∈ files) :
    fn ∈ get_files_to_patch files localFiles (changelog_is_valid logData fsMeta) ↔
      (lookupA fn localFiles = none ∨
       (∃ h, lookupA fn localFiles = some h ∧ fr.hash ≠ h) ∨
       changelog_is_valid logData fsMeta fn = false) := by
  have hstep : fn ∈ get_files_to_patch files localFiles (changelog_is_valid logData fsMeta) ↔
      needsPatch localFiles (changelog_is_valid logData fsMeta) fn fr = true := by
    rw [get_files_to_patch, mem_map_fst_filter]
    constructor
    · rintro ⟨v, hv, hq⟩
      have : lookupA fn files = some v := mem_lookupA hnd hv
      have : v = fr := by
        have h2 : lookupA fn files = some fr := mem_lookupA hnd hmem
        rw [this] at h2
        exact Option.some_injective _ h2
      subst this
      exact hq
    · intro hq
      exact ⟨fr, hmem, hq⟩
  rw [hstep, needsPatch]
  cases hl : lookupA fn localFiles with
  | none => simp
  | some h =>
    simp only [Bool.or_eq_true, decide_eq_true_eq, Bool.not_eq_true']
    constructor
    · rintro (hne | hval)
      · exact Or.inr (Or.inl ⟨h, rfl, hne⟩)
      · exact Or.inr (Or.inr hval)
    · rintro (habs | ⟨h2, hh2, hne⟩ | hval)
      · exact absurd habs (by simp)
      · exact Or.inl (by cases Option.some_injective _ hh2; exact hne)
      · exact Or.inr hval

/-- Witness for C1 at a concrete input: one manifest file, present locally
with a different derived hash and no changelog entry. -/
theorem files_to_patch_iff_witness :
    "a" ∈ get_files_to_patch [("a", ⟨"H1", ["b"]⟩)] [("a", "H2")]
      (changelog_is_valid [] (fun _ => none)) :=
  (files_to_patch_iff [("a", ⟨"H1", ["b"]⟩)] [("a", "H2")] [] (fun _ => none)
    (by decide) "a" ⟨"H1", ["b"]⟩ (by decide)).mpr
    (Or.inr (Or.inl ⟨"H2", by decide, by decide⟩))

/-- Claim C10: the planner's bundle analysis only records bundles with a
positive member count (the `bundle_size > 0` guard protects the
`len(blocks_needed) / bundle_size` division), and every bundle of the
fetch plan comes from such a record, so a bundle with an empty member map
never appears in the fetch plan. -/
theorem analyze_bundles_positive (bundles : List (String × BundleList)) (missing : List String) :
    (∀ e ∈ analyze_bundles bundles missing,
      ∃ bl, (e.1, bl) ∈ bundles ∧ 0 < bl.length ∧ e.2.1 = bl.length) ∧
    (∀ p ∈ (find_bundles_and_blocks_to_fetch bundles missing).1,
      ∃ e ∈ analyze_bundles bundles missing, p.1 = e.1 ∧ p.2 = e.2.2 ∧ 0 < e.2.1) := by
  constructor
  · intro e he
    rcases List.mem_filterMap.mp he with ⟨p, hp, hfe⟩
    by_cases hlen : p.2.length > 0
    · simp only [analyze_bundles, hlen, if_pos] at hfe
      exact ⟨p.2, by cases hfe; exact ⟨hp, hlen, rfl⟩⟩
    · simp [hlen] at hfe
  · intro p hp
    rcases List.mem_filterMap.mp hp with ⟨e, he, hfe⟩
    by_cases hcond : e.2.1 ≤ 2 * e.2.2.length
    · simp only [hcond, if_pos] at hfe
      refine ⟨e, he, by cases hfe; exact rfl, by cases hfe; exact rfl, ?_⟩
      rcases List.mem_filterMap.mp he with ⟨q, hq, hfq⟩
      by_cases hlen : q.2.length > 0
      · simp only [analyze_bundles, hlen, if_pos] at hfq
        cases hfq
        exact hlen
      · simp [hlen] at hfq
    · simp [hcond] at hfe

theorem mem_missing_of_mem_needed {missing : List String} {bl : BundleList} {h : String}
    (hh : h ∈ neededBlocks missing bl) : h ∈ missing := by
  have := (List.mem_filter.mp hh).2
  simpa using this

/-- Claim C2 counterexample: with two overlapping bundles — "A" with sole
member "h" and "B" with members "h","x","y","z" — and missing set {"h"},
"A" is selected (1/1 ≥ 0.5) and "B" is not (1/4 < 0.5), yet "B"'s needed
member "h" does NOT remain in the residual individual-block set: the plan
is exactly {"A": ["h"]} and the residual set is empty, refuting the
claim's clause that every needed member of an unselected bundle remains
in the residual set. -/
theorem planner_residual_counterexample :
    find_bundles_and_blocks_to_fetch
        [("A", [⟨"h", 1, 0⟩]), ("B", [⟨"h", 1, 0⟩, ⟨"x", 1, 1⟩, ⟨"y", 1, 2⟩, ⟨"z", 1, 3⟩])]
        ["h"] = ([("A", ["h"])], []) ∧
    neededBlocks ["h"] [⟨"h", 1, 0⟩, ⟨"x", 1, 1⟩, ⟨"y", 1, 2⟩, ⟨"z", 1, 3⟩] = ["h"] ∧
    2 * 1 < 4 := by
  decide

/-- Claim C2 as amended: for every manifest with distinct bundle ids and
every missing set, a non-empty bundle whose needed fraction is at least
0.5 is placed in the plan with exactly its needed member hashes, all of
which are removed from the residual set; a bundle below the threshold is
absent from the plan and each of its needed members remains in the
residual set unless it is also a needed member of some planned bundle;
and the plan's needed lists together with the residual set cover exactly
the missing set. -/
theorem planner_threshold (bundles : List (String × BundleList)) (missing : List String)
    (hnd : (bundles.map Prod.fst).Nodup) :
    (∀ bid bl, (bid, bl) ∈ bundles → bl ≠ [] →
      (bl.length ≤ 2 * (neededBlocks missing bl).length →
        (bid, neededBlocks missing bl) ∈ (find_bundles_and_blocks_to_fetch bundles missing).1 ∧
        ∀ h ∈ neededBlocks missing bl, h ∉ (find_bundles_and_blocks_to_fetch bundles missing).2) ∧
      (2 * (neededBlocks missing bl).length < bl.length →
        (∀ l, (bid, l) ∉ (find_bundles_and_blocks_to_fetch bundles missing).1) ∧
        ∀ h ∈ neededBlocks missing bl,
          (∀ p ∈ (find_bundles_and_blocks_to_fetch bundles missing).1, h ∉ p.2) →
          h ∈ (find_bundles_and_blocks_to_fetch bundles missing).2)) ∧
    (∀ h, h ∈ missing ↔
      (h ∈ (find_bundles_and_blocks_to_fetch bundles missing).2 ∨
       ∃ p ∈ (find_bundles_and_blocks_to_fetch bundles missing).1, h ∈ p.2)) := by
  have hplan_mem : ∀ bid l, (bid, l) ∈ (find_bundles_and_blocks_to_fetch bundles missing).1 ↔
      ∃ bl, (bid, bl) ∈ bundles ∧ 0 < bl.length ∧ l = neededBlocks missing bl ∧
        bl.length ≤ 2 * (neededBlocks missing bl).length := by
    intro bid l
    simp only [find_bundles_and_blocks_to_fetch, bundles_to_download, analyze_bundles,
      List.mem_filterMap]
    constructor
    · rintro ⟨e, ⟨p, hp, hfe⟩, hsel⟩
      by_cases hlen : p.2.length > 0
      · simp only [hlen, if_pos] at hfe
        cases hfe
        by_cases hcond : p.2.length ≤ 2 * (neededBlocks missing p.2).length
        · simp only [hcond, if_pos, Option.some_inj] at hsel
          cases hsel
          exact ⟨p.2, hp, hlen, rfl, hcond⟩
        · simp [hcond] at hsel
      · simp [hlen] at hfe
    · rintro ⟨bl, hmem, hpos, hl, hcond⟩
      subst hl
      exact ⟨(bid, bl.length, neededBlocks missing bl),
        ⟨(bid, bl), hmem, by simp [hpos]⟩, by simp [hcond]⟩
  have hres_mem : ∀ h, h ∈ (find_bundles_and_blocks_to_fetch bundles missing).2 ↔
      h ∈ missing ∧ ∀ p ∈ (find_bundles_and_blocks_to_fetch bundles missing).1, h ∉ p.2 := by
    intro h
    simp only [find_bundles_and_blocks_to_fetch, bundles_to_download, List.mem_filter,
      Bool.not_eq_true', List.any_eq_false, decide_eq_true_eq]
  constructor
  · intro bid bl hmem hne
    constructor
    · intro hcond
      have hin : (bid, neededBlocks missing bl) ∈ (find_bundles_and_blocks_to_fetch bundles missing).1 :=
        (hplan_mem bid (neededBlocks missing bl)).mpr
          ⟨bl, hmem, List.length_pos.mpr hne, rfl, hcond⟩
      refine ⟨hin, fun h hh hres => ?_⟩
      exact ((hres_mem h).mp hres).2 _ hin hh
    · intro hcond
      constructor
      · intro l hl
        rcases (hplan_mem bid l).mp hl with ⟨bl2, hmem2, _, _, hcond2⟩
        have : bl2 = bl := by
          have h1 := mem_lookupA hnd hmem2
          have h2 := mem_lookupA hnd hmem
          rw [h1] at h2
          exact Option.some_injective _ h2
        subst this
        omega
      · intro h hh hall
        exact (hres_mem h).mpr ⟨mem_missing_of_mem_needed hh, hall⟩
  · intro h
    constructor
    · intro hm
      by_cases hany : ∃ p ∈ (find_bundles_and_blocks_to_fetch bundles missing).1, h ∈ p.2
      · exact Or.inr hany
      · push_neg at hany
        exact Or.inl ((hres_mem h).mpr ⟨hm, hany⟩)
    · rintro (hres | ⟨p, hp, hh⟩)
      · exact ((hres_mem h).mp hres).1
      · rcases (hplan_mem p.1 p.2).mp (by simpa using hp) with ⟨bl, _, _, hl, _⟩
        rw [hl] at hh
        exact mem_missing_of_mem_needed hh

/-- Witness for the amended C2 at a concrete input: a two-member bundle
with one member missing sits exactly at the 0.5 threshold and is planned,
and its needed member leaves the residual set. -/
theorem planner_threshold_witness :
    ("A", ["h"]) ∈
      (find_bundles_and_blocks_to_fetch [("A", [⟨"h", 1, 0⟩, ⟨"k", 1, 1⟩])] ["h"]).1 ∧
    "h" ∉ (find_bundles_and_blocks_to_fetch [("A", [⟨"h", 1, 0⟩, ⟨"k", 1, 1⟩])] ["h"]).2 := by
  have h := (planner_threshold [("A", [⟨"h", 1, 0⟩, ⟨"k", 1, 1⟩])] ["h"] (by decide)).1
    "A" [⟨"h", 1, 0⟩, ⟨"k", 1, 1⟩] (by decide) (by decide)
  have h2 := h.1 (by decide)
  exact ⟨h2.1, h2.2 "h" (by decide)⟩

/-! ## Manifest fetching (`util.getPatchData`) and the apply pipeline
(`Patcher.patch`, `downloader.py` remote mode) -/

/-- A transport failure (`urllib.error.URLError`, `aiohttp` errors,
`raise_for_status`). -/
structure TransportErr where
  msg : String
deriving DecidableEq

/-- The substituted manifest `{'bundles': {}, 'files': {}}`. -/
def emptyPatchData : Manifest := ⟨[], []⟩

/-- `util.getPatchData` for a URL source: the HTTP fetch outcome is passed
in; the source catches `URLError` and returns the empty manifest instead
of propagating. -/
def getPatchData_url (fetchResult : Except TransportErr Manifest) : Manifest :=
  match fetchResult with
  | .ok m => m
  | .error _ => emptyPatchData

/-- `Downloader._fetch_remote`, bundle phase: each planned bundle issues a
range request (`_fetch_bundle_ranges`), whose recovered `(hash, bytes)`
pairs are stored into the pool; a transport error propagates. -/
def fetch_bundles_loop (bundles : List (String × List String))
    (rangeFetch : String → Except TransportErr (List (String × Bytes)))
    (pool : List (String × Bytes)) : Except TransportErr (List (String × Bytes)) :=
  match bundles with
  | [] => .ok pool
  | b :: rest =>
    match rangeFetch b.1 with
    | .error e => .error e
    | .ok blks => fetch_bundles_loop rest rangeFetch
        (blks.foldl (fun p kv => updIns p kv.1 kv.2) pool)

/-- `Downloader._fetch_remote`, individual-block phase: each residual
block is fetched by GET and stored; a transport error propagates. -/
def fetch_blocks_loop (blocks : List String)
    (blockFetch : String → Except TransportErr Bytes)
    (pool : List (String × Bytes)) : Except TransportErr (List (String × Bytes)) :=
  match blocks with
  | [] => .ok pool
  | b :: rest =>
    match blockFetch b with
    | .error e => .error e
    | .ok d => fetch_blocks_loop rest blockFetch (updIns pool b d)

/-- `Downloader.fetch` in remote mode: bundles, then residual blocks. -/
def downloader_fetch_remote (bundles : List (String × List String)) (blocks : List String)
    (rangeFetch : String → Except TransportErr (List (String × Bytes)))
    (blockFetch : String → Except TransportErr Bytes)
    (pool : List (String × Bytes)) : Except TransportErr (List (String × Bytes)) :=
  match fetch_bundles_loop bundles rangeFetch pool with
  | .error e => .error e
  | .ok pool2 => fetch_blocks_loop blocks blockFetch pool2

/-- The planning-plus-download prefix of `Patcher.patch` for a given
manifest: files to patch, local scan, missing blocks, fetch plan,
download. -/
def pipelineDownload (m : Manifest) (localFiles : List (String × String))
    (isValid : String → Bool) (scan : List String → List (String × Bytes))
    (rangeFetch : String → Except TransportErr (List (String × Bytes)))
    (blockFetch : String → Except TransportErr Bytes) :
    Except TransportErr (List (String × Bytes)) :=
  let files_to_patch := get_files_to_patch m.files localFiles isValid
  let local_blocks := scan files_to_patch
  let missing := get_missing_blocks files_to_patch m.files local_blocks
  let plan := find_bundles_and_blocks_to_fetch m.bundles missing
  downloader_fetch_remote plan.1 plan.2 rangeFetch blockFetch local_blocks

/-- What a completed apply performed: the manifest it used, the files it
patched, and whether the cleaner and the changelog save ran. -/
structure PatchOutcome where
  manifestUsed : Manifest
  filesPatched : List String
  cleanerRan : Bool
  changelogSaved : Bool
deriving DecidableEq

/-- `Patcher.patch` with a remote patch-data source: load the manifest
(through `getPatchData`'s catch), plan, download; after a successful
download the file patcher, the cleaner and the changelog save all run
unconditionally. -/
def patcher_patch (manifestFetch : Except TransportErr Manifest)
    (localFiles : List (String × String)) (isValid : String → Bool)
    (scan : List String → List (String × Bytes))
    (rangeFetch : String → Except TransportErr (List (String × Bytes)))
    (blockFetch : String → Except TransportErr Bytes) :
    Except TransportErr PatchOutcome :=
  let new_build := getPatchData_url manifestFetch
  match pipelineDownload new_build localFiles isValid scan rangeFetch blockFetch with
  | .error e => .error e
  | .ok _pool =>
    .ok ⟨new_build, get_files_to_patch new_build.files localFiles isValid, true, true⟩

/-- Claim C4 counterexample: with a transport error on the manifest fetch,
the apply does NOT abort: it returns successfully, having run the cleaner
and the changelog save against the substituted empty manifest — even
though every other fetch would also fail. -/
theorem manifest_error_not_propagated :
    patcher_patch (.error ⟨"connection refused"⟩) [] (fun _ => true) (fun _ => [])
      (fun _ => .error ⟨"net"⟩) (fun _ => .error ⟨"net"⟩) =
      .ok ⟨emptyPatchData, [], true, true⟩ := rfl

/-- Claim C4 as amended: a transport error while fetching any block or
bundle propagates and aborts the apply, but a transport error while
fetching the manifest is caught: `getPatchData` substitutes the empty
manifest `{'bundles': {}, 'files': {}}` and the apply continues — running
the cleaner and the changelog save — instead of aborting. -/
theorem transport_error_policy (localFiles : List (String × String))
    (isValid : String → Bool) (scan : List String → List (String × Bytes))
    (rangeFetch : String → Except TransportErr (List (String × Bytes)))
    (blockFetch : String → Except TransportErr Bytes) :
    (∀ e, getPatchData_url (.error e) = emptyPatchData) ∧
    (∀ e, patcher_patch (.error e) localFiles isValid scan rangeFetch blockFetch =
      .ok ⟨emptyPatchData, [], true, true⟩) ∧
    (∀ m e, pipelineDownload m localFiles isValid scan rangeFetch blockFetch = .error e →
      patcher_patch (.ok m) localFiles isValid scan rangeFetch blockFetch = .error e) := by
  refine ⟨fun e => rfl, fun e => rfl, fun m e hdl => ?_⟩
  simp only [patcher_patch, getPatchData_url, hdl]

/-- Witness for the amended C4: a one-file manifest whose only block fetch
fails with a transport error makes the whole apply fail with that error. -/
theorem transport_error_policy_witness :
    patcher_patch (.ok ⟨[("f", ⟨"HH", ["b1"]⟩)], []⟩) [] (fun _ => true) (fun _ => [])
      (fun _ => .error ⟨"net"⟩) (fun _ => .error ⟨"net"⟩) = .error ⟨"net"⟩ :=
  (transport_error_policy [] (fun _ => true) (fun _ => [])
    (fun _ => .error ⟨"net"⟩) (fun _ => .error ⟨"net"⟩)).2.2
    ⟨[("f", ⟨"HH", ["b1"]⟩)], []⟩ ⟨"net"⟩ rfl

/-! ## File patcher (`file_patcher.py`) -/

/-- The install-tree state relevant to one file: the installed file at the
final path and the temporary file, each `none` when absent. -/
structure FsState where
  finalFile : Option Bytes
  tempFile : Option Bytes
deriving DecidableEq

/-- The write loop of `FilePatcher.apply_patch_to_file`: append
`local_blocks[block]` for each block hash in order; a missing hash raises
`KeyError` (success flag `false`), stopping the loop. -/
def write_blocks_loop (blocks : List String) (pool : List (String × Bytes)) (acc : Bytes) :
    Bytes × Bool :=
  match blocks with
  | [] => (acc, true)
  | b :: rest =>
    match lookupA b pool with
    | some d => write_blocks_loop rest pool (acc ++ d)
    | none => (acc, false)

/-- `FilePatcher.apply_patch_to_file`: create a temp file, write the
blocks into it; on success remove the final path if present and rename
the temp file onto it; the `finally` clause unlinks the temp file when it
still exists (on the success path the rename already moved it away).  The
returned flag records whether the call succeeded or re-raised. -/
def apply_patch_to_file (blocks : List String) (pool : List (String × Bytes)) (st : FsState) :
    FsState × Bool :=
  let w := write_blocks_loop blocks pool []
  if w.2 then
    ({ finalFile := some w.1, tempFile := none }, true)
  else
    ({ finalFile := st.finalFile, tempFile := none }, false)

theorem write_blocks_loop_ok (blocks : List String) (pool : List (String × Bytes))
    (hall : ∀ b ∈ blocks, (lookupA b pool).isSome) (acc : Bytes) :
    write_blocks_loop blocks pool acc =
      (acc ++ blocks.flatMap (fun b => (lookupA b pool).getD []), true) := by
  induction blocks generalizing acc with
  | nil => simp [write_blocks_loop]
  | cons b rest ih =>
    rcases Option.isSome_iff_exists.mp (hall b (List.mem_cons_self b rest)) with ⟨d, hd⟩
    have ihr := ih (fun x hx => hall x (List.mem_cons_of_mem _ hx)) (acc ++ d)
    simp [write_blocks_loop, hd, ihr]

theorem write_blocks_loop_fail (blocks : List String) (pool : List (String × Bytes))
    (hmiss : ∃ b ∈ blocks, lookupA b pool = none) (acc : Bytes) :
    (write_blocks_loop blocks pool acc).2 = false := by
  induction blocks generalizing acc with
  | nil => simp at hmiss
  | cons b rest ih =>
    cases hb : lookupA b pool with
    | none => simp [write_blocks_loop, hb]
    | some d =>
      rcases hmiss with ⟨x, hx, hnone⟩
      rcases List.mem_cons.mp hx with h1 | h2
      · subst h1
        rw [hb] at hnone
        cases hnone
      · simpa [write_blocks_loop, hb] using ih ⟨x, h2, hnone⟩ (acc ++ d)

/-- Claim C7: if a block lookup fails while writing, the temp file is
removed and the installed file is unchanged; if every block is present,
the final path holds the concatenation of the pool entries of the
record's block hashes in order and no temp file remains. -/
theorem apply_patch_atomic (blocks : List String) (pool : List (String × Bytes)) (st : FsState) :
    ((∃ b ∈ blocks, lookupA b pool = none) →
      apply_patch_to_file blocks pool st =
        ({ finalFile := st.finalFile, tempFile := none }, false)) ∧
    ((∀ b ∈ blocks, (lookupA b pool).isSome) →
      apply_patch_to_file blocks pool st =
        ({ finalFile := some (blocks.flatMap (fun b => (lookupA b pool).getD [])),
           tempFile := none }, true)) := by
  constructor
  · intro hmiss
    simp [apply_patch_to_file, write_blocks_loop_fail blocks pool hmiss []]
  · intro hall
    simp [apply_patch_to_file, write_blocks_loop_ok blocks pool hall []]

/-- Witness for C7: a missing-block failure leaves the installed bytes in
place, and a complete pool produces the concatenated content. -/
theorem apply_patch_atomic_witness :
    apply_patch_to_file ["b1"] [] ⟨some [9], none⟩ = (⟨some [9], none⟩, false) ∧
    apply_patch_to_file ["b1", "b2"] [("b1", [1, 2]), ("b2", [3])] ⟨some [9], none⟩ =
      (⟨some [1, 2, 3], none⟩, true) :=
  ⟨(apply_patch_atomic ["b1"] [] ⟨some [9], none⟩).1 ⟨"b1", by decide, rfl⟩,
   (apply_patch_atomic ["b1", "b2"] [("b1", [1, 2]), ("b2", [3])] ⟨some [9], none⟩).2
     (by decide)⟩

/-! ## Dictionary training (`util.load_or_train_dict`,
`BlockBuilder.writeBlockFiles`) -/

/-- Where the compression dictionary came from. -/
inductive DictSource
  | loadedFromFile
  | trained (trainingSample : List Bytes)
deriving DecidableEq

/-- `util.load_or_train_dict`: an existing dictionary file is loaded and
returned before any training; otherwise train on `random.sample(data,
samples)` when a cap is given and exceeded, else on all blocks.
`randomSample` stands for `random.sample` (uniform, without
replacement). -/
def load_or_train_dict (dictFileExists : Bool) (uncompressed_data : List Bytes)
    (samples : Option Nat) (randomSample : Nat → List Bytes → List Bytes) : DictSource :=
  if dictFileExists then .loadedFromFile
  else
    match samples with
    | some n =>
      if uncompressed_data.length > n then .trained (randomSample n uncompressed_data)
      else .trained uncompressed_data
    | none => .trained uncompressed_data

/-- The dictionary step of `BlockBuilder.writeBlockFiles`: only when
compression is enabled, call `load_or_train_dict` with
`samples = 2000 if not regenDict else None`. -/
def writeBlockFiles_dict (compress regenDict dictFileExists : Bool)
    (uncompressed_data : List Bytes) (randomSample : Nat → List Bytes → List Bytes) :
    Option DictSource :=
  if compress then
    some (load_or_train_dict dictFileExists uncompressed_data
      (if regenDict then none else some 2000) randomSample)
  else none

/-- Claim C8 counterexample: with compression enabled, `regen_dict`
requested and a dictionary file already present, the existing dictionary
is loaded and no training happens — refuting the claim that `regen_dict`
trains a new dictionary even when a dictionary file exists. -/
theorem regen_dict_counterexample :
    writeBlockFiles_dict true true true [[1]] (fun n l => l.take n) =
      some DictSource.loadedFromFile ∧
    DictSource.loadedFromFile ≠ DictSource.trained [[1]] := by
  decide

/-- Claim C8 as amended: with compression enabled, an existing dictionary
file is always loaded and no training occurs, whether or not `regen_dict`
is requested; only when no dictionary file exists does training happen —
on all raw blocks when `regen_dict` is requested (sample size unbounded),
and otherwise on a sample of 2,000 blocks when more than 2,000 exist, or
on all blocks when not. -/
theorem dict_training (uncompressed_data : List Bytes)
    (randomSample : Nat → List Bytes → List Bytes) :
    (∀ regenDict, writeBlockFiles_dict true regenDict true uncompressed_data randomSample =
      some DictSource.loadedFromFile) ∧
    (writeBlockFiles_dict true true false uncompressed_data randomSample =
      some (DictSource.trained uncompressed_data)) ∧
    (uncompressed_data.length > 2000 →
      writeBlockFiles_dict true false false uncompressed_data randomSample =
        some (DictSource.trained (randomSample 2000 uncompressed_data))) ∧
    (uncompressed_data.length ≤ 2000 →
      writeBlockFiles_dict true false false uncompressed_data randomSample =
        some (DictSource.trained uncompressed_data)) := by
  refine ⟨fun regenDict => by simp [writeBlockFiles_dict, load_or_train_dict], ?_, ?_, ?_⟩
  · simp [writeBlockFiles_dict, load_or_train_dict]
  · intro hgt
    simp [writeBlockFiles_dict, load_or_train_dict, hgt]
  · intro hle
    simp [writeBlockFiles_dict, load_or_train_dict, Nat.not_lt.mpr hle]

/-- Witness for the amended C8: one block, no dictionary file, no regen —
training uses the whole block list. -/
theorem dict_training_witness :
    writeBlockFiles_dict true false false [[1]] (fun n l => l.take n) =
      some (DictSource.trained [[1]]) :=
  (dict_training [[1]] (fun n l => l.take n)).2.2.2 (by decide)

/-! ## Cleaner (`cleaner.py`) and changelog updates (`change_log.py`) -/

/-- Python `".DS_Store" in s`: substring containment. -/
def containsDSStore (s : String) : Bool :=
  decide (List.IsInfix ".DS_Store".data s.data)

/-- The basename of a POSIX-style relative path: the characters after the
last slash. -/
def basenameOf (p : String) : String :=
  String.mk ((p.data.reverse.takeWhile (fun c => c != '/')).reverse)

/-- `ChangeLog.update_metadata`: names containing ".DS_Store" are skipped;
otherwise the entry is assigned the file's current `(size, lastMod)`. -/
def changelog_update_metadata (logData : List (String × (String × String)))
    (fn : String) (meta : String × String) : List (String × (String × String)) :=
  if containsDSStore fn then logData else updIns logData fn meta

/-- `ChangeLog.remove_file`: `self._data.pop(filename, None)`. -/
def changelog_remove_file (logData : List (String × (String × String)))
    (fn : String) : List (String × (String × String)) :=
  delA fn logData

/-- `Cleaner._cleanup_file` on one walked file, as its effect pair
`(file deleted?, changelog after)`: paths not in the manifest's files map
are removed and dropped from the changelog — except the path equal to
exactly ".DS_Store", which returns early — while manifest paths get their
metadata refreshed (`curMeta` is the file's current size/mtime). -/
def cleanup_file_effect (manifestFiles : List String) (rel_path : String)
    (logData : List (String × (String × String))) (curMeta : String × String) :
    Bool × List (String × (String × String)) :=
  if rel_path ∉ manifestFiles then
    if rel_path = ".DS_Store" then (false, logData)
    else (true, changelog_remove_file logData rel_path)
  else (false, changelog_update_metadata logData rel_path curMeta)

/-- Claim C9 counterexample: the nested file "sub/.DS_Store" — whose
basename contains ".DS_Store" — is not a key of the manifest's files map,
and the cleaner deletes it and drops its changelog entry, refuting the
claim that such files are never deleted nor dropped. -/
theorem cleaner_ds_store_counterexample :
    cleanup_file_effect ["a.txt"] "sub/.DS_Store"
      [("sub/.DS_Store", ("1", "2"))] ("1", "2") = (true, []) ∧
    containsDSStore (basenameOf "sub/.DS_Store") = true := by
  refine ⟨rfl, by decide⟩

/-- Claim C9 as amended: the cleaner keeps a file (and its changelog
entry) only when its relative path is exactly ".DS_Store" at the top
level; every other file not in the manifest — nested ".DS_Store" files
included — is removed and its changelog entry dropped; surviving manifest
files get fresh size/mtime recorded, except that the changelog update
itself skips paths containing ".DS_Store". -/
theorem cleaner_behavior (manifestFiles : List String)
    (logData : List (String × (String × String))) (rel : String) (meta : String × String) :
    (rel ∉ manifestFiles → rel = ".DS_Store" →
      cleanup_file_effect manifestFiles rel logData meta = (false, logData)) ∧
    (rel ∉ manifestFiles → rel ≠ ".DS_Store" →
      cleanup_file_effect manifestFiles rel logData meta =
        (true, changelog_remove_file logData rel)) ∧
    (rel ∈ manifestFiles →
      cleanup_file_effect manifestFiles rel logData meta =
        (false, changelog_update_metadata logData rel meta)) ∧
    (rel ∈ manifestFiles → containsDSStore rel = false →
      cleanup_file_effect manifestFiles rel logData meta =
        (false, updIns logData rel meta)) := by
  refine ⟨fun hnm heq => ?_, fun hnm hne => ?_, fun hm => ?_, fun hm hds => ?_⟩
  · subst heq
    simp [cleanup_file_effect, hnm]
  · simp [cleanup_file_effect, hnm, hne]
  · simp [cleanup_file_effect, hm]
  · simp [cleanup_file_effect, hm, changelog_update_metadata, hds]

/-- Witness for the amended C9: a stray file is removed with its
changelog entry, and a manifest file gets fresh metadata recorded. -/
theorem cleaner_behavior_witness :
    cleanup_file_effect ["a.txt"] "junk.bin" [("junk.bin", ("1", "2"))] ("3", "4") =
      (true, []) ∧
    cleanup_file_effect ["a.txt"] "a.txt" [] ("3", "4") =
      (false, [("a.txt", ("3", "4"))]) :=
  ⟨(cleaner_behavior ["a.txt"] [("junk.bin", ("1", "2"))] "junk.bin" ("3", "4")).2.1
      (by decide) (by decide),
   (cleaner_behavior ["a.txt"] [] "a.txt" ("3", "4")).2.2.2 (by decide) (by decide)⟩

/-! ## Multipart range responses (`Downloader._process_multipart_response`) -/

/-- `Range` request entry (`RangeRequest` in the source; `stop` is the
source's `end`, a Lean keyword). -/
structure RangeReq where
  start : Nat
  stop : Nat
  block_hash : String
deriving DecidableEq

/-- Python `bytes.rstrip(b"\r\n")`: drop every trailing byte that is 0x0D
or 0x0A. -/
def rstripCRLF (l : Bytes) : Bytes :=
  (l.reverse.dropWhile (fun b => b == 13 || b == 10)).reverse

/-- One part of `_process_multipart_response` after the header split:
`contentRange` is the parsed `(start, end)` of its `Content-Range` header
(none when absent, skipping the part), `afterHeaders` the bytes following
the blank line, still carrying the CRLF that precedes the next boundary
delimiter.  The content is `afterHeaders.rstrip(b"\r\n")`; a matching
requested range stores it in the pool under the range's block hash (the
no-compression path, where `_decompress_if_needed` is the identity). -/
def process_part (ranges : List RangeReq) (pool : List (String × Bytes))
    (contentRange : Option (Nat × Nat)) (afterHeaders : Bytes) : List (String × Bytes) :=
  match contentRange with
  | none => pool
  | some r =>
    match ranges.find? (fun rr => rr.start == r.1 && rr.stop == r.2) with
    | none => pool
    | some rr => updIns pool rr.block_hash (rstripCRLF afterHeaders)

/-- `_process_multipart_response` over the already-split parts. -/
def process_multipart_response (parts : List (Option (Nat × Nat) × Bytes))
    (ranges : List RangeReq) (pool : List (String × Bytes)) : List (String × Bytes) :=
  parts.foldl (fun p part => process_part ranges p part.1 part.2) pool

/-- In a `multipart/byteranges` body, a part's bytes after the blank line
are the content followed by the CRLF that precedes the next boundary
delimiter. -/
def multipartPartBody (content : Bytes) : Bytes := content ++ [13, 10]

/-- Claim C6 as a code bug, evaluated at the failing input: a part whose
content bytes are `[0x41, 0x0A]` ("A\n"), framed with its delimiter CRLF
and matching requested range 0-1, is stored as `[0x41]` — `rstrip(b"\r\n")`
strips the content's own trailing 0x0A together with the delimiter CRLF,
so the stored bytes differ from the part's content bytes. -/
theorem multipart_rstrip_divergence :
    process_multipart_response [(some (0, 1), multipartPartBody [65, 10])]
      [⟨0, 1, "b1"⟩] [] = [("b1", [65])] ∧
    ([65] : Bytes) ≠ [65, 10] := by
  decide

/-! ## Producer bundler (`create/bundleBuilder.py`, `create/blockBuilder.py`)

Bundle ids are `sha256(str(bundleList))` in the source; SHA-256 composed
with Python's textual rendering is injective on member lists (absent a
hash collision), so the id is modelled as the member list itself. -/

def getBundleId (l : BundleList) : BundleList := l

/-- The bundle-index map `BundleBuilder.__data`, id to member list. -/
abbrev BundleData := List (BundleList × BundleList)

/-- `BundleBuilder.canMakeBundle`: every member hash of the prior bundle
is still a key of the current block set. -/
def canMakeBundle (bs : List (String × Bytes)) (b : BundleList) : Bool :=
  b.all (fun m => (lookupA m.hash bs).isSome)

/-- The loop of `BundleBuilder.makeBundle`: walk the prior bundle's
members in index order, re-deriving each member's length from the current
block-set payload and its offset as the running sum, and deleting the
consumed key from the block set.  The lookup is guarded by
`canMakeBundle` at the call site (Python raises `KeyError` otherwise), so
the `[]` default is never taken there. -/
def makeBundleAux (b : BundleList) (bs : List (String × Bytes)) (off : Nat) :
    BundleList × List (String × Bytes) :=
  match b with
  | [] => ([], bs)
  | m :: rest =>
    let d := (lookupA m.hash bs).getD []
    let r := makeBundleAux rest (delA m.hash bs) (off + d.length)
    (⟨m.hash, d.length, off⟩ :: r.1, r.2)

/-- `BundleBuilder.makeBundle` (the bundle payload written to disk is
I/O and not modelled; the returned pair is the rebuilt member list and
the shrunk block set). -/
def makeBundle (b : BundleList) (bs : List (String × Bytes)) :
    BundleList × List (String × Bytes) :=
  makeBundleAux b bs 0

/-- Phase 1 of `BundleBuilder.buildBundles`: for each prior bundle's
member map, in manifest order, reuse it when `canMakeBundle` holds,
storing `self.__data[getBundleId(bundleList)] = bundleList`. -/
def reuseLoop (oldBs : List BundleList) (data : BundleData)
    (bs : List (String × Bytes)) : BundleData × List (String × Bytes) :=
  match oldBs with
  | [] => (data, bs)
  | b :: rest =>
    if canMakeBundle bs b then
      let r := makeBundle b bs
      reuseLoop rest (updIns data (getBundleId r.1) r.1) r.2
    else reuseLoop rest data bs

/-- The remaining pool split into groups of 60 (a bundle is emitted when
`blocksProcessed == 59`, i.e. after its 60th member; the final partial
group is emitted when non-empty). -/
def chunk60 {α : Type} : List α → List (List α)
  | [] => []
  | x :: xs => (x :: xs.take 59) :: chunk60 (xs.drop 59)
termination_by l => l.length
decreasing_by simp [List.length_drop]; omega

/-- The member list built for one group of remaining blocks: lengths from
the payloads, offsets by running sum (`bundleList[blocksProcessed] =
{"hash": block, "length": len(result), "blockOffset": length}`). -/
def mkBundleListAux (c : List (String × Bytes)) (off : Nat) : BundleList :=
  match c with
  | [] => []
  | p :: rest => ⟨p.1, p.2.length, off⟩ :: mkBundleListAux rest (off + p.2.length)

def mkBundleList (c : List (String × Bytes)) : BundleList := mkBundleListAux c 0

/-- Phase 2 of `BundleBuilder.buildBundles`: emit each group of 60 (and
the final partial group) as a new bundle. -/
def newBundlesLoop (data : BundleData) (chunks : List (List (String × Bytes))) : BundleData :=
  chunks.foldl (fun d c => updIns d (getBundleId (mkBundleList c)) (mkBundleList c)) data

/-- `BundleBuilder.buildBundles`: prior-bundle reuse, then 60-block
packing of the remainder.  The bundle files, the stale-file cleanup and
the string re-keying of member indices are I/O and formatting, not
modelled. -/
def buildBundles (oldBs : List BundleList) (bs0 : List (String × Bytes)) : BundleData :=
  let r := reuseLoop oldBs [] bs0
  newBundlesLoop r.1 (chunk60 r.2)

/-- `BlockBuilder.__processFile` inserting every chunked block into the
shared ordered block set, over all walked files (`processDir`).  The
input is the chunker's output per file: `(path, [(block_hash, bytes)])`. -/
def buildBlockSet (files : List (String × List (String × Bytes))) : List (String × Bytes) :=
  files.foldl (fun bs f => f.2.foldl (fun bs2 p => updIns bs2 p.1 p.2) bs) []

/-- `BlockBuilder.writeBlockFiles` replaces each payload in place by its
compressed form when compression is enabled (keys unchanged). -/
def compressBlockSet (compressFn : Option (Bytes → Bytes))
    (bs : List (String × Bytes)) : List (String × Bytes) :=
  match compressFn with
  | some c => bs.map (fun p => (p.1, c p.2))
  | none => bs

/-- The block set as `create_patch` hands it to `BundleBuilder`: chunker
output accumulated, then compressed in place. -/
def producerBlockSet (compressFn : Option (Bytes → Bytes))
    (files : List (String × List (String × Bytes))) : List (String × Bytes) :=
  compressBlockSet compressFn (buildBlockSet files)

/-- All member hashes stored in the bundle-index map, bundles in order. -/
def dataHashes (data : BundleData) : List String :=
  data.flatMap (fun p => entryHashes p.2)

/-- The bundle-index map only ever binds `getBundleId bl` to `bl`, so
every stored pair has equal components under the injective id model. -/
def DataInv (data : BundleData) : Prop := ∀ p ∈ data, p.2 = p.1

/-- The source's cumulative-offset discipline for a member list, starting
at `off`. -/
def offsetsFromB : BundleList → Nat → Bool
  | [], _ => true
  | m :: rest, off => decide (m.blockOffset = off) && offsetsFromB rest (off + m.length)

theorem keys_updIns_of_isSome {α β : Type} [DecidableEq α] {k : α} (l : List (α × β)) (v : β)
    (h : (lookupA k l).isSome) : (updIns l k v).map Prod.fst = l.map Prod.fst := by
  unfold updIns
  rw [if_pos h, List.map_map]
  exact List.map_congr_left (fun p hp => by by_cases hk : p.1 = k <;> simp [hk])

theorem updIns_of_none {α β : Type} [DecidableEq α] {k : α} (l : List (α × β)) (v : β)
    (h : lookupA k l = none) : updIns l k v = l ++ [(k, v)] := by
  unfold updIns
  rw [if_neg (by simp [h])]

theorem mem_keys_updIns_self {α β : Type} [DecidableEq α] (k : α) (l : List (α × β)) (v : β) :
    k ∈ (updIns l k v).map Prod.fst := by
  unfold updIns
  split
  · next h =>
    rw [List.map_map]
    rcases Option.isSome_iff_exists.mp h with ⟨w, hw⟩
    rcases List.mem_map.mp ((lookupA_isSome_iff k l).mp h) with ⟨p, hp, hfst⟩
    exact List.mem_map.mpr ⟨p, hp, by simp [hfst]⟩
  · simp

theorem mem_keys_updIns_of {α β : Type} [DecidableEq α] {x k : α} (l : List (α × β)) (v : β)
    (h : x ∈ l.map Prod.fst) : x ∈ (updIns l k v).map Prod.fst := by
  by_cases hs : (lookupA k l).isSome
  · rw [keys_updIns_of_isSome l v hs]
    exact h
  · rw [updIns_of_none l v (Option.not_isSome_iff_eq_none.mp hs)]
    simp [h]

theorem nodup_keys_updIns {α β : Type} [DecidableEq α] {k : α} {l : List (α × β)} (v : β)
    (h : (l.map Prod.fst).Nodup) : ((updIns l k v).map Prod.fst).Nodup := by
  by_cases hs : (lookupA k l).isSome
  · rw [keys_updIns_of_isSome l v hs]
    exact h
  · rw [updIns_of_none l v (Option.not_isSome_iff_eq_none.mp hs)]
    have hk : k ∉ l.map Prod.fst := by
      rw [← lookupA_isSome_iff]
      exact hs
    simp [List.nodup_append, h, hk]

theorem lookupA_delA_ne {α β : Type} [DecidableEq α] {k x : α} (hne : x ≠ k) :
    ∀ l : List (α × β), lookupA x (delA k l) = lookupA x l
  | [] => rfl
  | p :: rest => by
    by_cases hp : p.1 = k
    · have hpx : p.1 ≠ x := fun he => hne (he.symm.trans hp)
      rw [show delA k (p :: rest) = delA k rest from by simp [delA, List.filter_cons, hp]]
      rw [lookupA_delA_ne hne rest]
      simp [lookupA, hpx]
    · rw [show delA k (p :: rest) = p :: delA k rest from by simp [delA, List.filter_cons, hp]]
      by_cases hx : p.1 = x
      · simp [lookupA, hx]
      · simp [lookupA, hx, lookupA_delA_ne hne rest]

theorem keys_delA {α β : Type} [DecidableEq α] (k : α) (l : List (α × β)) :
    (delA k l).map Prod.fst = (l.map Prod.fst).filter (fun x => x != k) := by
  induction l with
  | nil => rfl
  | cons p rest ih =>
    by_cases hp : p.1 = k <;>
      simp [delA, List.filter_cons, hp, ih] <;> simpa [delA] using ih

theorem nodup_keys_delA {α β : Type} [DecidableEq α] (k : α) {l : List (α × β)}
    (h : (l.map Prod.fst).Nodup) : ((delA k l).map Prod.fst).Nodup := by
  rw [keys_delA]
  exact h.filter _

theorem perm_keys_delA {α β : Type} [DecidableEq α] {k : α} {l : List (α × β)}
    (hs : (lookupA k l).isSome) (hnd : (l.map Prod.fst).Nodup) :
    List.Perm (l.map Prod.fst) (k :: (delA k l).map Prod.fst) := by
  rw [keys_delA, ← List.Nodup.erase_eq_filter hnd k]
  exact List.perm_cons_erase ((lookupA_isSome_iff k l).mp hs)

theorem makeBundleAux_spec (b : BundleList) :
    ∀ (bs : List (String × Bytes)) (off : Nat),
    (bs.map Prod.fst).Nodup → (entryHashes b).Nodup → canMakeBundle bs b = true →
    entryHashes (makeBundleAux b bs off).1 = entryHashes b ∧
    List.Perm (bs.map Prod.fst)
      (entryHashes b ++ (makeBundleAux b bs off).2.map Prod.fst) ∧
    ((makeBundleAux b bs off).2.map Prod.fst).Nodup := by
  induction b with
  | nil =>
    intro bs off hnd _ _
    exact ⟨rfl, by simp [makeBundleAux, entryHashes], hnd⟩
  | cons m rest ih =>
    intro bs off hnd hbnd hcan
    simp only [canMakeBundle, List.all_cons, Bool.and_eq_true] at hcan
    have hs : (lookupA m.hash bs).isSome := hcan.1
    have hbnd' : (entryHashes (m :: rest)).Nodup := hbnd
    simp only [entryHashes, List.map_cons, List.nodup_cons] at hbnd'
    have hmni : m.hash ∉ entryHashes rest := hbnd'.1
    have hnd1 : ((delA m.hash bs).map Prod.fst).Nodup := nodup_keys_delA m.hash hnd
    have hcan1 : canMakeBundle (delA m.hash bs) rest = true := by
      simp only [canMakeBundle, List.all_eq_true]
      intro x hx
      have hxne : x.hash ≠ m.hash := by
        intro he
        exact hmni (he ▸ List.mem_map.mpr ⟨x, hx, rfl⟩)
      rw [lookupA_delA_ne hxne bs]
      exact List.all_eq_true.mp hcan.2 x hx
    rcases ih (delA m.hash bs) (off + ((lookupA m.hash bs).getD []).length) hnd1 hbnd'.2 hcan1
      with ⟨ihh, ihp, ihn⟩
    refine ⟨?_, ?_, ihn⟩
    · simp only [makeBundleAux, entryHashes, List.map_cons]
      rw [show (makeBundleAux rest (delA m.hash bs)
          (off + ((lookupA m.hash bs).getD []).length)).1.map BMeta.hash
          = entryHashes rest from ihh]
      rfl
    · have hstep := perm_keys_delA hs hnd
      have hrest := ihp.cons m.hash
      have := hstep.trans hrest
      simpa [makeBundleAux, entryHashes] using this

/-- The bundle-index insert `self.__data[getBundleId(bl)] = bl` always
leaves the pair `(bl, bl)` present. -/
theorem updIns_self_mem (data : BundleData) (b : BundleList) : (b, b) ∈ updIns data b b := by
  unfold updIns
  split
  · next h =>
    rcases Option.isSome_iff_exists.mp h with ⟨v, hv⟩
    exact List.mem_map.mpr ⟨(b, v), lookupA_mem hv, by simp⟩
  · simp

theorem updIns_mem_preserve {data : BundleData} {b : BundleList} (l : BundleList)
    (h : (b, b) ∈ data) : (b, b) ∈ updIns data l l := by
  unfold updIns
  split
  · refine List.mem_map.mpr ⟨(b, b), h, ?_⟩
    by_cases hb : b = l
    · simp [hb]
    · simp [hb]
  · exact List.mem_append_left _ h

theorem updIns_eq_of_inv {data : BundleData} {b : BundleList} (hinv : DataInv data)
    (hs : (lookupA b data).isSome) : updIns data b b = data := by
  unfold updIns
  rw [if_pos hs]
  have hid : ∀ p ∈ data, (if p.1 = b then (b, b) else p) = p := by
    intro p hp
    by_cases hk : p.1 = b
    · have h2 : p.2 = p.1 := hinv p hp
      rw [if_pos hk]
      cases p
      simp_all
    · rw [if_neg hk]
  rw [List.map_congr_left hid]
  simp

theorem dataHashes_cons (p : BundleList × BundleList) (rest : BundleData) :
    dataHashes (p :: rest) = entryHashes p.2 ++ dataHashes rest := by
  simp [dataHashes]

theorem dataHashes_append_single (data : BundleData) (i bl : BundleList) :
    dataHashes (data ++ [(i, bl)]) = dataHashes data ++ entryHashes bl := by
  simp [dataHashes]

theorem dataInv_append_single {data : BundleData} (hinv : DataInv data) (b : BundleList) :
    DataInv (data ++ [(b, b)]) := by
  intro p hp
  rcases List.mem_append.mp hp with h1 | h2
  · exact hinv p h1
  · simp at h2
    simp [h2]

theorem reuseLoop_spec (keys0 : List String) (hnd0 : keys0.Nodup) :
    ∀ (oldBs : List BundleList) (data : BundleData) (bs : List (String × Bytes)),
    (∀ b ∈ oldBs, (entryHashes b).Nodup) → DataInv data →
    List.Perm (dataHashes data ++ bs.map Prod.fst) keys0 →
    DataInv (reuseLoop oldBs data bs).1 ∧
    List.Perm (dataHashes (reuseLoop oldBs data bs).1 ++
      (reuseLoop oldBs data bs).2.map Prod.fst) keys0 := by
  intro oldBs
  induction oldBs with
  | nil =>
    intro data bs _ hinv hperm
    exact ⟨hinv, hperm⟩
  | cons b rest ih =>
    intro data bs hold hinv hperm
    by_cases hcan : canMakeBundle bs b = true
    · have hstep : reuseLoop (b :: rest) data bs = reuseLoop rest
          (updIns data (getBundleId (makeBundle b bs).1) (makeBundle b bs).1)
          (makeBundle b bs).2 := by
        simp [reuseLoop, hcan]
      rw [hstep]
      have hall : (dataHashes data ++ bs.map Prod.fst).Nodup := hperm.nodup_iff.mpr hnd0
      rcases List.nodup_append.mp hall with ⟨hndD, hndB, hdisj⟩
      rcases makeBundleAux_spec b bs 0 hndB (hold b (List.mem_cons_self b rest)) hcan
        with ⟨hh, hp, hn⟩
      by_cases hlk : (lookupA (makeBundle b bs).1 data).isSome
      · have hbnil : b = [] := by
          by_contra hbne
          rcases List.exists_cons_of_ne_nil hbne with ⟨m, bt, hbeq⟩
          have hm1 : m.hash ∈ entryHashes b := by
            rw [hbeq]
            exact List.mem_map.mpr ⟨m, List.mem_cons_self m bt, rfl⟩
          have hm2 : m.hash ∈ bs.map Prod.fst := by
            rw [hbeq] at hcan
            simp only [canMakeBundle, List.all_cons, Bool.and_eq_true] at hcan
            exact (lookupA_isSome_iff m.hash bs).mp hcan.1
          rcases Option.isSome_iff_exists.mp hlk with ⟨v, hv⟩
          have hvmem := lookupA_mem hv
          have hveq : v = (makeBundle b bs).1 := hinv _ hvmem
          have hm3 : m.hash ∈ dataHashes data := by
            apply List.mem_flatMap.mpr
            refine ⟨((makeBundle b bs).1, v), hvmem, ?_⟩
            show m.hash ∈ entryHashes v
            rw [hveq]
            exact hh ▸ hm1
          exact hdisj hm3 hm2
        subst hbnil
        have hupd : updIns data (getBundleId (makeBundle [] bs).1) (makeBundle [] bs).1
            = data := updIns_eq_of_inv hinv hlk
        rw [hupd]
        exact ih data bs (fun x hx => hold x (List.mem_cons_of_mem _ hx)) hinv hperm
      · have hnone := Option.not_isSome_iff_eq_none.mp hlk
        have hupd : updIns data (getBundleId (makeBundle b bs).1) (makeBundle b bs).1
            = data ++ [((makeBundle b bs).1, (makeBundle b bs).1)] :=
          updIns_of_none data _ hnone
        rw [hupd]
        apply ih
        · exact fun x hx => hold x (List.mem_cons_of_mem _ hx)
        · exact dataInv_append_single hinv _
        · rw [dataHashes_append_single]
          rw [show entryHashes (makeBundle b bs).1 = entryHashes b from hh]
          have h1 : List.Perm (dataHashes data ++ bs.map Prod.fst)
              (dataHashes data ++ (entryHashes b ++ (makeBundle b bs).2.map Prod.fst)) :=
            List.Perm.append_left _ hp
          have h2 := h1.symm.trans hperm
          simpa [List.append_assoc] using h2
    · have hstep : reuseLoop (b :: rest) data bs = reuseLoop rest data bs := by
        simp [reuseLoop, hcan]
      rw [hstep]
      exact ih data bs (fun x hx => hold x (List.mem_cons_of_mem _ hx)) hinv hperm

theorem chunk60_flatMap_map {α β : Type} (f : α → β) :
    ∀ l : List α, (chunk60 l).flatMap (fun c => c.map f) = l.map f
  | [] => by simp [chunk60]
  | x :: xs => by
    have ih := chunk60_flatMap_map f (xs.drop 59)
    rw [chunk60]
    simp only [List.flatMap_cons, ih, List.map_cons, List.cons_append]
    rw [← List.map_append, List.take_append_drop]
termination_by l => l.length
decreasing_by simp [List.length_drop]; omega

theorem chunk60_ne_nil {α : Type} :
    ∀ (l : List α), ∀ c ∈ chunk60 l, c ≠ []
  | [] => by simp [chunk60]
  | x :: xs => by
    intro c hc
    rw [chunk60] at hc
    rcases List.mem_cons.mp hc with h1 | h2
    · simp [h1]
    · exact chunk60_ne_nil (xs.drop 59) c h2
termination_by l => l.length
decreasing_by simp [List.length_drop]; omega

theorem entryHashes_mkBundleListAux (c : List (String × Bytes)) :
    ∀ off, entryHashes (mkBundleListAux c off) = c.map Prod.fst := by
  induction c with
  | nil => intro off; rfl
  | cons p rest ih =>
    intro off
    simp only [mkBundleListAux, entryHashes, List.map_cons]
    rw [show (mkBundleListAux rest (off + p.2.length)).map BMeta.hash
        = rest.map Prod.fst from ih _]

theorem newBundlesLoop_spec (keys0 : List String) (hnd0 : keys0.Nodup) :
    ∀ (chunks : List (List (String × Bytes))) (data : BundleData),
    DataInv data → (∀ c ∈ chunks, c ≠ []) →
    List.Perm (dataHashes data ++ chunks.flatMap (fun c => c.map Prod.fst)) keys0 →
    List.Perm (dataHashes (newBundlesLoop data chunks)) keys0 := by
  intro chunks
  induction chunks with
  | nil =>
    intro data _ _ hperm
    simpa [newBundlesLoop] using hperm
  | cons c rest ih =>
    intro data hinv hne hperm
    have hstep : newBundlesLoop data (c :: rest) = newBundlesLoop
        (updIns data (getBundleId (mkBundleList c)) (mkBundleList c)) rest := by
      simp [newBundlesLoop]
    rw [hstep]
    have hall : (dataHashes data ++ (c :: rest).flatMap (fun c => c.map Prod.fst)).Nodup :=
      hperm.nodup_iff.mpr hnd0
    rcases List.nodup_append.mp hall with ⟨hndD, _, hdisj⟩
    by_cases hlk : (lookupA (mkBundleList c) data).isSome
    · exfalso
      rcases List.exists_cons_of_ne_nil (hne c (List.mem_cons_self c rest)) with ⟨p, ct, hceq⟩
      have hm1 : p.1 ∈ entryHashes (mkBundleList c) := by
        rw [show entryHashes (mkBundleList c) = c.map Prod.fst from
          entryHashes_mkBundleListAux c 0, hceq]
        exact List.mem_map.mpr ⟨p, List.mem_cons_self p ct, rfl⟩
      rcases Option.isSome_iff_exists.mp hlk with ⟨v, hv⟩
      have hvmem := lookupA_mem hv
      have hveq : v = mkBundleList c := hinv _ hvmem
      have hm3 : p.1 ∈ dataHashes data :=
        List.mem_flatMap.mpr ⟨(mkBundleList c, v), hvmem, by
          show p.1 ∈ entryHashes v
          rw [hveq]
          exact hm1⟩
      have hm2 : p.1 ∈ (c :: rest).flatMap (fun c => c.map Prod.fst) :=
        List.mem_flatMap.mpr ⟨c, List.mem_cons_self c rest,
          by rw [hceq]; exact List.mem_map.mpr ⟨p, List.mem_cons_self p ct, rfl⟩⟩
      exact hdisj hm3 hm2
    · have hnone := Option.not_isSome_iff_eq_none.mp hlk
      have hupd : updIns data (getBundleId (mkBundleList c)) (mkBundleList c)
          = data ++ [(mkBundleList c, mkBundleList c)] := updIns_of_none data _ hnone
      rw [hupd]
      apply ih
      · exact dataInv_append_single hinv _
      · exact fun x hx => hne x (List.mem_cons_of_mem _ hx)
      · rw [dataHashes_append_single,
          show entryHashes (mkBundleList c) = c.map Prod.fst from entryHashes_mkBundleListAux c 0]
        simp only [List.flatMap_cons] at hperm
        simpa [List.append_assoc] using hperm

theorem nodup_keys_foldl_updIns (ps : List (String × Bytes)) :
    ∀ bs : List (String × Bytes), (bs.map Prod.fst).Nodup →
    (((ps.foldl (fun bs2 p => updIns bs2 p.1 p.2) bs)).map Prod.fst).Nodup := by
  induction ps with
  | nil => intro bs h; exact h
  | cons p rest ih =>
    intro bs h
    exact ih _ (nodup_keys_updIns p.2 h)

theorem nodup_keys_buildBlockSet_aux (files : List (String × List (String × Bytes))) :
    ∀ bs : List (String × Bytes), (bs.map Prod.fst).Nodup →
    ((files.foldl (fun bs f => f.2.foldl (fun bs2 p => updIns bs2 p.1 p.2) bs) bs).map
      Prod.fst).Nodup := by
  induction files with
  | nil => intro bs h; exact h
  | cons f rest ih =>
    intro bs h
    exact ih _ (nodup_keys_foldl_updIns f.2 bs h)

theorem nodup_keys_buildBlockSet (files : List (String × List (String × Bytes))) :
    ((buildBlockSet files).map Prod.fst).Nodup :=
  nodup_keys_buildBlockSet_aux files [] (by simp)

theorem mem_keys_foldl_updIns (ps : List (String × Bytes)) {h : String} :
    ∀ bs : List (String × Bytes), (h ∈ bs.map Prod.fst ∨ h ∈ ps.map Prod.fst) →
    h ∈ ((ps.foldl (fun bs2 p => updIns bs2 p.1 p.2) bs)).map Prod.fst := by
  induction ps with
  | nil =>
    intro bs hmem
    rcases hmem with h1 | h2
    · exact h1
    · simp at h2
  | cons p rest ih =>
    intro bs hmem
    apply ih
    rcases hmem with h1 | h2
    · exact Or.inl (mem_keys_updIns_of bs p.2 h1)
    · rcases List.mem_cons.mp h2 with h3 | h4
      · exact Or.inl (h3 ▸ mem_keys_updIns_self p.1 bs p.2)
      · exact Or.inr h4

theorem mem_keys_buildBlockSet_aux (files : List (String × List (String × Bytes)))
    {h : String} :
    ∀ bs : List (String × Bytes),
    (h ∈ bs.map Prod.fst ∨ h ∈ files.flatMap (fun f => f.2.map Prod.fst)) →
    h ∈ ((files.foldl (fun bs f => f.2.foldl (fun bs2 p => updIns bs2 p.1 p.2) bs) bs).map
      Prod.fst) := by
  induction files with
  | nil =>
    intro bs hmem
    rcases hmem with h1 | h2
    · exact h1
    · simp at h2
  | cons f rest ih =>
    intro bs hmem
    apply ih
    rcases hmem with h1 | h2
    · exact Or.inl (mem_keys_foldl_updIns f.2 bs (Or.inl h1))
    · simp only [List.flatMap_cons, List.mem_append] at h2
      rcases h2 with h3 | h4
      · exact Or.inl (mem_keys_foldl_updIns f.2 bs (Or.inr h3))
      · exact Or.inr h4

theorem mem_keys_buildBlockSet {files : List (String × List (String × Bytes))} {h : String}
    (hmem : h ∈ files.flatMap (fun f => f.2.map Prod.fst)) :
    h ∈ (buildBlockSet files).map Prod.fst :=
  mem_keys_buildBlockSet_aux files [] (Or.inr hmem)

theorem keys_compressBlockSet (c : Option (Bytes → Bytes)) (bs : List (String × Bytes)) :
    (compressBlockSet c bs).map Prod.fst = bs.map Prod.fst := by
  cases c with
  | none => rfl
  | some f =>
    simp [compressBlockSet, List.map_map]

theorem countP_flat_one (h : String) :
    ∀ data : BundleData, (dataHashes data).count h = 1 →
    data.countP (fun p => decide (h ∈ entryHashes p.2)) = 1 := by
  intro data
  induction data with
  | nil => intro hc; simp [dataHashes] at hc
  | cons p rest ih =>
    intro hc
    rw [dataHashes_cons, List.count_append] at hc
    by_cases hmem : h ∈ entryHashes p.2
    · have h1 : (entryHashes p.2).count h ≠ 0 := by
        rw [Ne, List.count_eq_zero]
        exact fun hno => hno hmem
      have h2 : (dataHashes rest).count h = 0 := by omega
      have h3 : rest.countP (fun p => decide (h ∈ entryHashes p.2)) = 0 := by
        rw [List.countP_eq_zero]
        intro q hq
        simp only [decide_eq_true_eq]
        intro hql
        have : h ∈ dataHashes rest := List.mem_flatMap.mpr ⟨q, hq, hql⟩
        rw [List.count_eq_zero] at h2
        exact h2 this
      rw [List.countP_cons, h3, if_pos (by simpa using hmem)]
    · have h1 : (entryHashes p.2).count h = 0 := List.count_eq_zero.mpr hmem
      rw [List.countP_cons, if_neg (by simpa using hmem)]
      rw [h1] at hc
      simp only [Nat.zero_add] at hc
      rw [ih hc]

theorem nodup_entryHashes_of_mem :
    ∀ {oldBs : List BundleList}, (oldBs.flatMap entryHashes).Nodup →
    ∀ {b : BundleList}, b ∈ oldBs → (entryHashes b).Nodup := by
  intro oldBs
  induction oldBs with
  | nil => intro _ b hb; simp at hb
  | cons x rest ih =>
    intro hg b hb
    simp only [List.flatMap_cons] at hg
    rcases List.nodup_append.mp hg with ⟨h1, h2, _⟩
    rcases List.mem_cons.mp hb with h3 | h4
    · exact h3 ▸ h1
    · exact ih h2 h4

theorem buildBundles_partition_general (oldBs : List BundleList)
    (bs0 : List (String × Bytes))
    (hold : (oldBs.flatMap entryHashes).Nodup)
    (hnd0 : (bs0.map Prod.fst).Nodup) :
    List.Perm ((buildBundles oldBs bs0).flatMap (fun p => entryHashes p.2))
      (bs0.map Prod.fst) := by
  have hphase1 := reuseLoop_spec (bs0.map Prod.fst) hnd0 oldBs [] bs0
    (fun b hb => nodup_entryHashes_of_mem hold hb) (fun p hp => by simp at hp)
    (by simp [dataHashes])
  have hchunkne := chunk60_ne_nil (reuseLoop oldBs [] bs0).2
  have hflat : (chunk60 (reuseLoop oldBs [] bs0).2).flatMap (fun c => c.map Prod.fst)
      = (reuseLoop oldBs [] bs0).2.map Prod.fst := chunk60_flatMap_map Prod.fst _
  have hphase2 := newBundlesLoop_spec (bs0.map Prod.fst) hnd0
    (chunk60 (reuseLoop oldBs [] bs0).2) (reuseLoop oldBs [] bs0).1
    hphase1.1 hchunkne (by rw [hflat]; exact hphase1.2)
  exact hphase2

/-- Claim C3: for every source tree (as chunker output) and every prior
manifest whose bundles partition their own members, the produced bundle
map's members are, as a multiset, exactly the distinct block hashes of
the block set the files produced — and hence every block hash referenced
by some file record appears as a member of exactly one produced bundle. -/
theorem producer_partition (files : List (String × List (String × Bytes)))
    (oldBs : List BundleList) (compressFn : Option (Bytes → Bytes))
    (hold : (oldBs.flatMap entryHashes).Nodup) :
    List.Perm
      ((buildBundles oldBs (producerBlockSet compressFn files)).flatMap
        (fun p => entryHashes p.2))
      ((producerBlockSet compressFn files).map Prod.fst) ∧
    ∀ h ∈ files.flatMap (fun f => f.2.map Prod.fst),
      (buildBundles oldBs (producerBlockSet compressFn files)).countP
        (fun p => decide (h ∈ entryHashes p.2)) = 1 := by
  have hnd0 : ((producerBlockSet compressFn files).map Prod.fst).Nodup := by
    rw [producerBlockSet, keys_compressBlockSet]
    exact nodup_keys_buildBlockSet files
  have hperm := buildBundles_partition_general oldBs (producerBlockSet compressFn files)
    hold hnd0
  refine ⟨hperm, fun h hmem => ?_⟩
  have hk : h ∈ (producerBlockSet compressFn files).map Prod.fst := by
    rw [producerBlockSet, keys_compressBlockSet]
    exact mem_keys_buildBlockSet hmem
  apply countP_flat_one
  show ((buildBundles oldBs (producerBlockSet compressFn files)).flatMap
    (fun p => entryHashes p.2)).count h = 1
  rw [hperm.count_eq]
  exact List.count_eq_one_of_mem hnd0 hk

/-- Witness for C3 at a concrete input: one file with two blocks, no
prior manifest, no compression — the block "h1" lies in exactly one
produced bundle. -/
theorem producer_partition_witness :
    (buildBundles [] (producerBlockSet none [("f1", [("h1", [7]), ("h2", [8, 9])])])).countP
      (fun p => decide ("h1" ∈ entryHashes p.2)) = 1 :=
  (producer_partition [("f1", [("h1", [7]), ("h2", [8, 9])])] [] none (by decide)).2
    "h1" (by decide)

theorem canMakeBundle_of_lookup {b : BundleList} {bs : List (String × Bytes)}
    (hlook : ∀ m ∈ b, ∃ d, lookupA m.hash bs = some d ∧ d.length = m.length) :
    canMakeBundle bs b = true := by
  simp only [canMakeBundle, List.all_eq_true]
  intro m hm
  rcases hlook m hm with ⟨d, hd, _⟩
  simp [hd]

theorem makeBundleAux_self (b : BundleList) :
    ∀ (bs : List (String × Bytes)) (off : Nat),
    (entryHashes b).Nodup →
    (∀ m ∈ b, ∃ d, lookupA m.hash bs = some d ∧ d.length = m.length) →
    offsetsFromB b off = true →
    (makeBundleAux b bs off).1 = b := by
  induction b with
  | nil => intro bs off _ _ _; rfl
  | cons m rest ih =>
    intro bs off hbnd hlook hoff
    rcases hlook m (List.mem_cons_self m rest) with ⟨d, hd, hdl⟩
    simp only [offsetsFromB, Bool.and_eq_true, decide_eq_true_eq] at hoff
    simp only [entryHashes, List.map_cons, List.nodup_cons] at hbnd
    have hlook' : ∀ x ∈ rest, ∃ dx, lookupA x.hash (delA m.hash bs) = some dx ∧
        dx.length = x.length := by
      intro x hx
      have hxne : x.hash ≠ m.hash := by
        intro he
        exact hbnd.1 (he ▸ List.mem_map.mpr ⟨x, hx, rfl⟩)
      rw [lookupA_delA_ne hxne bs]
      exact hlook x (List.mem_cons_of_mem _ hx)
    have hoffr : offsetsFromB rest (off + d.length) = true := by
      rw [hdl]
      exact hoff.2
    have ihr := ih (delA m.hash bs) (off + d.length) hbnd.2 hlook' hoffr
    simp only [makeBundleAux, hd, Option.getD_some]
    rw [ihr]
    have hm : (⟨m.hash, d.length, off⟩ : BMeta) = m := by
      cases m
      simp_all
    rw [hm]

theorem makeBundleAux_lookup_ne (b : BundleList) :
    ∀ (bs : List (String × Bytes)) (off : Nat) {x : String}, x ∉ entryHashes b →
    lookupA x (makeBundleAux b bs off).2 = lookupA x bs := by
  induction b with
  | nil => intro bs off x _; rfl
  | cons m rest ih =>
    intro bs off x hx
    simp only [entryHashes, List.map_cons, List.mem_cons, not_or] at hx
    have h1 : lookupA x (makeBundleAux (m :: rest) bs off).2
        = lookupA x (delA m.hash bs) := by
      simp only [makeBundleAux]
      exact ih (delA m.hash bs) _ (by simpa [entryHashes] using hx.2)
    rw [h1, lookupA_delA_ne hx.1 bs]

theorem newBundlesLoop_mem_preserve {b : BundleList} (chunks : List (List (String × Bytes))) :
    ∀ data : BundleData, (b, b) ∈ data → (b, b) ∈ newBundlesLoop data chunks := by
  induction chunks with
  | nil => intro data h; exact h
  | cons c rest ih =>
    intro data h
    exact ih _ (updIns_mem_preserve (mkBundleList c) h)

theorem reuseLoop_mem_preserve {b : BundleList} (oldBs : List BundleList) :
    ∀ (data : BundleData) (bs : List (String × Bytes)),
    (b, b) ∈ data → (b, b) ∈ (reuseLoop oldBs data bs).1 := by
  induction oldBs with
  | nil => intro data bs h; exact h
  | cons x rest ih =>
    intro data bs h
    by_cases hcan : canMakeBundle bs x = true
    · rw [show reuseLoop (x :: rest) data bs = reuseLoop rest
          (updIns data (getBundleId (makeBundle x bs).1) (makeBundle x bs).1)
          (makeBundle x bs).2 from by simp [reuseLoop, hcan]]
      exact ih _ _ (updIns_mem_preserve (makeBundle x bs).1 h)
    · rw [show reuseLoop (x :: rest) data bs = reuseLoop rest data bs from by
        simp [reuseLoop, hcan]]
      exact ih _ _ h

theorem reuseLoop_reuses {b : BundleList} :
    ∀ (oldBs : List BundleList) (data : BundleData) (bs : List (String × Bytes)),
    (oldBs.flatMap entryHashes).Nodup → b ∈ oldBs →
    (∀ m ∈ b, ∃ d, lookupA m.hash bs = some d ∧ d.length = m.length) →
    offsetsFromB b 0 = true →
    (b, b) ∈ (reuseLoop oldBs data bs).1 := by
  intro oldBs
  induction oldBs with
  | nil => intro data bs _ hb; simp at hb
  | cons x rest ih =>
    intro data bs hg hb hlook hoff
    simp only [List.flatMap_cons] at hg
    rcases List.nodup_append.mp hg with ⟨hx1, hx2, hxdisj⟩
    rcases List.mem_cons.mp hb with hbx | hbrest
    · subst hbx
      have hcan : canMakeBundle bs b = true := canMakeBundle_of_lookup hlook
      rw [show reuseLoop (b :: rest) data bs = reuseLoop rest
          (updIns data (getBundleId (makeBundle b bs).1) (makeBundle b bs).1)
          (makeBundle b bs).2 from by simp [reuseLoop, hcan]]
      have hself : (makeBundle b bs).1 = b := makeBundleAux_self b bs 0 hx1 hlook hoff
      rw [hself]
      exact reuseLoop_mem_preserve rest _ _ (updIns_self_mem data b)
    · have hsub : ∀ y ∈ entryHashes b, y ∉ entryHashes x := by
        intro y hy hyx
        exact hxdisj hyx (List.mem_flatMap.mpr ⟨b, hbrest, hy⟩)
      by_cases hcan : canMakeBundle bs x = true
      · rw [show reuseLoop (x :: rest) data bs = reuseLoop rest
            (updIns data (getBundleId (makeBundle x bs).1) (makeBundle x bs).1)
            (makeBundle x bs).2 from by simp [reuseLoop, hcan]]
        apply ih _ _ hx2 hbrest _ hoff
        intro m hm
        rcases hlook m hm with ⟨d, hd, hdl⟩
        refine ⟨d, ?_, hdl⟩
        have hrw : lookupA m.hash (makeBundle x bs).2 = lookupA m.hash bs :=
          makeBundleAux_lookup_ne x bs 0 (hsub m.hash (List.mem_map.mpr ⟨m, hm, rfl⟩))
        rw [hrw]
        exact hd
      · rw [show reuseLoop (x :: rest) data bs = reuseLoop rest data bs from by
          simp [reuseLoop, hcan]]
        exact ih _ _ hx2 hbrest hlook hoff

/-- Claim C5 counterexample: block-hash survival alone does not reproduce
the prior bundle's id.  Prior bundle B stores member "h1" with length 2,
but V2's block set carries a 1-byte payload for "h1" (as after a change
of compression settings between versions): `makeBundle` re-derives the
member list with the new length, so the produced map's only bundle has id
`getBundleId [⟨"h1",1,0⟩]`, different from B's id
`getBundleId [⟨"h1",2,0⟩]`, which is bound to nothing — refuting the
claim that survival of B's block hashes suffices for B's id to appear. -/
theorem bundle_reuse_counterexample :
    buildBundles [[⟨"h1", 2, 0⟩]] [("h1", [7])] =
      [([⟨"h1", 1, 0⟩], [⟨"h1", 1, 0⟩])] ∧
    getBundleId [⟨"h1", 2, 0⟩] ≠ getBundleId [⟨"h1", 1, 0⟩] ∧
    lookupA (getBundleId [⟨"h1", 2, 0⟩])
      (buildBundles [[⟨"h1", 2, 0⟩]] [("h1", [7])]) = none ∧
    "h1" ∈ ([("h1", [7])] : List (String × Bytes)).map Prod.fst := by
  have hr : reuseLoop [[⟨"h1", 2, 0⟩]] [] [("h1", [7])] =
      ([([⟨"h1", 1, 0⟩], [⟨"h1", 1, 0⟩])], []) := rfl
  have h1 : buildBundles [[⟨"h1", 2, 0⟩]] [("h1", [7])] =
      [([⟨"h1", 1, 0⟩], [⟨"h1", 1, 0⟩])] := by
    show newBundlesLoop (reuseLoop [[⟨"h1", 2, 0⟩]] [] [("h1", [7])]).1
      (chunk60 (reuseLoop [[⟨"h1", 2, 0⟩]] [] [("h1", [7])]).2) =
      [([⟨"h1", 1, 0⟩], [⟨"h1", 1, 0⟩])]
    rw [hr]
    show newBundlesLoop [([⟨"h1", 1, 0⟩], [⟨"h1", 1, 0⟩])] (chunk60 []) = _
    rw [show chunk60 ([] : List (String × Bytes)) = [] from by simp [chunk60]]
    rfl
  refine ⟨h1, by decide, ?_, by decide⟩
  rw [h1]
  decide

/-- Claim C5 as amended: block-hash survival yields a re-emitted bundle
with B's ordered hash sequence, but B's id reappears only when the
re-derived member list is B's own — so, additionally: B's stored member
lengths equal the lengths of the corresponding payloads in V2's block
set (automatic when the block payloads are byte-identical across the two
versions, i.e. unchanged compression settings), B's offsets follow the
producer's cumulative-sum discipline, the prior manifest's bundles
partition their members, and B's id is the one the producer computes
(`getBundleId` of its member list).  Then the produced bundle map
contains a bundle with exactly B's id and the identical ordered member
list. -/
theorem bundle_reuse (oldBs : List BundleList) (bs0 : List (String × Bytes))
    (b bid : BundleList)
    (hold : (oldBs.flatMap entryHashes).Nodup)
    (hb : b ∈ oldBs)
    (hlook : ∀ m ∈ b, ∃ d, lookupA m.hash bs0 = some d ∧ d.length = m.length)
    (hoff : offsetsFromB b 0 = true)
    (hbid : bid = getBundleId b) :
    (bid, b) ∈ buildBundles oldBs bs0 := by
  subst hbid
  exact newBundlesLoop_mem_preserve (chunk60 (reuseLoop oldBs [] bs0).2) _
    (reuseLoop_reuses oldBs [] bs0 hold hb hlook hoff)

/-- Witness for C5 at a concrete input: a one-member prior bundle whose
block survives is re-emitted with the same id and member list. -/
theorem bundle_reuse_witness :
    ([⟨"h1", 1, 0⟩], [⟨"h1", 1, 0⟩]) ∈
      buildBundles [[⟨"h1", 1, 0⟩]] [("h1", [7])] :=
  bundle_reuse [[⟨"h1", 1, 0⟩]] [("h1", [7])] [⟨"h1", 1, 0⟩] [⟨"h1", 1, 0⟩]
    (by decide) (by decide)
    (fun m hm => by
      simp at hm
      subst hm
      exact ⟨[7], rfl, rfl⟩)
    (by decide) rfl

end Gluu
